import Mathlib

/-!
# Verification of the RFM scoring engine

Shallow embedding of the scoring engine of the RFM customer-segmentation
pipeline (`modules/rfm_processing.py` and `modules/segment_assigner.py`),
together with proofs about the outlier-bound calculation, break (cut-point)
computation, score assignment, final-score combination and business-category
assignment.

Numeric modelling: pandas/numpy float64 columns are modelled as exact
rationals (`ℚ`); the code's literal `0.001` becomes `1/1000`.  Null entries
are not modelled (every list element is a present value), so the code's
`.notnull()` filter is the identity here.  Python exceptions are modelled by
`Except RFMError`: `ValueError` raised for an unsupported method name is
`configError`, numpy/jenkspy failures on empty samples are `dataError`, and
a missing column/configuration lookup (`KeyError`) is `keyError`.
-/

set_option allowUnsafeReducibility true
attribute [semireducible] Rat.add Rat.mul Rat.inv Rat.sub Rat.blt

deriving instance DecidableEq for Except

namespace RFM

/-- Error taxonomy: `configError` models `ValueError` raised for an
unsupported method string, `dataError` models the numpy/jenkspy exception on
an empty sample, `keyError` models Python `KeyError` (missing column or
missing configuration entry). -/
inductive RFMError where
  | configError
  | dataError
  | keyError
deriving DecidableEq, Repr

/-- Per-variable configuration (`variables` section of the YAML): the
outlier method and break method are the raw strings the code dispatches on;
the optional numeric parameters default inside the code via `.get`. -/
structure VarConfig where
  outlier_method : String
  iqr_factor : Option ℚ := none
  std_dev_factor : Option ℚ := none
  percentile_lower : Option ℚ := none
  percentile_upper : Option ℚ := none
  breaks_method : String
deriving DecidableEq, Repr

/-- Global configuration (`global_settings` of the YAML): the score range
and the number of categories. -/
structure GlobalConfig where
  score_min : ℤ
  score_max : ℤ
  score_step : ℤ
  num_categories : ℕ
deriving DecidableEq, Repr

/-- Ascending sort used to model numpy's internal sort in `np.percentile`. -/
def sortQ (xs : List ℚ) : List ℚ := xs.insertionSort (· ≤ ·)

/-- `pandas.Series.min` on a nonempty column (no nulls modelled). -/
def colMin (xs : List ℚ) : ℚ :=
  match xs with
  | [] => 0
  | x :: r => r.foldl min x

/-- `pandas.Series.max` on a nonempty column (no nulls modelled). -/
def colMax (xs : List ℚ) : ℚ :=
  match xs with
  | [] => 0
  | x :: r => r.foldl max x

/-- `pandas.Series.mean`: sum divided by length. -/
def colMean (xs : List ℚ) : ℚ := xs.sum / xs.length

/-- Sample variance with `ddof = 1`, the square of `pandas.Series.std`. -/
def sampleVar (xs : List ℚ) : ℚ :=
  (xs.map (fun x => (x - colMean xs) ^ 2)).sum / (xs.length - 1 : ℚ)

/-- The linear-interpolation kernel of `np.percentile` on an already sorted
list `s` at virtual index `h`: interpolate between `s[⌊h⌋]` and `s[⌊h⌋+1]`
(the upper access is clamped to the lower value at the right end). -/
def interpCore (s : List ℚ) (h : ℚ) : ℚ :=
  let i : ℕ := (Int.floor h).toNat
  let lo := s.getD i 0
  let hi := s.getD (i + 1) lo
  lo + (h - Int.floor h) * (hi - lo)

/-- `np.percentile` interpolation on an already sorted list `s`: with
`n = s.length`, the virtual index is `h = (n-1)·p/100`. -/
def interpAt (s : List ℚ) (p : ℚ) : ℚ :=
  interpCore s (((s.length : ℚ) - 1) * p / 100)

/-- `np.percentile(xs, p)` (default linear interpolation); numpy raises on
an empty array, modelled as `dataError`.  `pandas.Series.quantile(q)` is the
same computation at `p = 100·q`. -/
def npPercentile (xs : List ℚ) (p : ℚ) : Except RFMError ℚ :=
  if xs.isEmpty then .error .dataError
  else .ok (interpAt (sortQ xs) p)

/-- `np.digitize(x, bins, right=False)` for the ascending `bins` produced by
`calculate_breaks`: the index of the first bin strictly greater than `x`,
i.e. the number of bins `≤ x`. -/
def digitize (x : ℚ) (bins : List ℚ) : ℕ :=
  (bins.filter (fun b => decide (b ≤ x))).length

/-- `np.clip(v, lo, hi)`: `min (max v lo) hi`. -/
def npClip (v lo hi : ℤ) : ℤ := min (max v lo) hi

/-- The `0.001` literal of `calculate_breaks`. -/
def eps : ℚ := 1 / 1000

/-- Result of `calculate_outliers_limits`: the tuple
`(LI, LS, spread, min_value, max_value)` where `spread` is the IQR, the
standard deviation, or `None` for the percentile method. -/
structure OutlierLimits where
  LI : ℚ
  LS : ℚ
  spread : Option ℚ
  min_value : ℚ
  max_value : ℚ
deriving DecidableEq, Repr

/-- `calculate_outliers_limits(df, column)` on a column `xs`.

`pandas.Series.std` is an irrational square root in general, which `ℚ`
cannot represent, so the standard deviation is passed in as the extra
parameter `sigma`; theorems about the `std_dev` branch constrain it by
`0 ≤ sigma` and `sigma ^ 2 = sampleVar xs`.  The other branches ignore it.
Dispatch is on the raw method string exactly as in the source; an
unsupported string raises `ValueError` (`configError`), and the quantile
computations of the `IQR` branch raise on an empty column. -/
def calculate_outliers_limits (xs : List ℚ) (cfg : VarConfig) (sigma : ℚ) :
    Except RFMError OutlierLimits :=
  let min_value := colMin xs
  let max_value := colMax xs
  if cfg.outlier_method = "IQR" then do
    let Q1 ← npPercentile xs 25
    let Q3 ← npPercentile xs 75
    let IQR_value := Q3 - Q1
    let IQR_factor := cfg.iqr_factor.getD (3 / 2)
    let LI := Q1 - IQR_factor * IQR_value
    let LS := Q3 + IQR_factor * IQR_value
    pure ⟨LI, LS, some IQR_value, min_value, max_value⟩
  else if cfg.outlier_method = "std_dev" then
    let mean_value := colMean xs
    let std_dev_factor := cfg.std_dev_factor.getD 2
    let LI := mean_value - std_dev_factor * sigma
    let LS := mean_value + std_dev_factor * sigma
    pure ⟨LI, LS, some sigma, min_value, max_value⟩
  else if cfg.outlier_method = "percentiles" then do
    let lower_percentile := cfg.percentile_lower.getD 5
    let upper_percentile := cfg.percentile_upper.getD 95
    let LI ← npPercentile xs lower_percentile
    let LS ← npPercentile xs upper_percentile
    pure ⟨LI, LS, none, min_value, max_value⟩
  else
    .error .configError

/-- The interior percentile positions
`np.linspace(0, 100, num_categories + 1)[1:-1]`. -/
def interiorPercentiles (n : ℕ) : List ℚ :=
  (((List.range (n + 1)).drop 1).dropLast).map (fun (k : ℕ) => 100 * (k : ℚ) / (n : ℚ))

/-- Within-class sum of squared deviations from the class mean. -/
def classSSD (c : List ℚ) : ℚ :=
  (c.map (fun x => (x - colMean c) ^ 2)).sum

/-- All ways of splitting a list into `n` nonempty contiguous classes. -/
def contigSplits : ℕ → List ℚ → List (List (List ℚ))
  | 0, xs => if xs.isEmpty then [[]] else []
  | n + 1, xs =>
    (List.range xs.length).flatMap
      (fun k => (contigSplits n (xs.drop (k + 1))).map
        (fun rest => xs.take (k + 1) :: rest))

/-- Total goodness-of-variance cost of a partition. -/
def totalSSD (p : List (List ℚ)) : ℚ := (p.map classSSD).sum

/-- First element of minimal cost. -/
def argminSSD : List (List (List ℚ)) → Option (List (List ℚ))
  | [] => none
  | p :: ps =>
    match argminSSD ps with
    | none => some p
    | some q => if totalSSD p ≤ totalSSD q then some p else some q

/-- Modelled from the spec: `jenkspy.jenks_breaks(values, n_classes)` is an
external library absent from the repository.  Per the spec it "runs Jenks
natural-breaks optimization (minimizes within-class variance) requesting
`num_categories` classes", returning the `n+1` class boundaries
`[min, upper₁, …, upperₙ₋₁, max]` over the sorted values; it raises on an
empty input or an infeasible class count (`dataError` here). -/
def jenks_breaks (xs : List ℚ) (n : ℕ) : Except RFMError (List ℚ) :=
  if n < 2 ∨ xs.length < n then .error .dataError
  else
    let s := sortQ xs
    match argminSSD (contigSplits n s) with
    | none => .error .dataError
    | some p => .ok (s.headD 0 :: p.map (fun c => c.getLastD 0))

/-- Consecutive pairs `[(l[0],l[1]), (l[1],l[2]), …]` of a cut-point list:
the `break_ranges` comprehension of `calculate_breaks`. -/
def consecPairs : List ℚ → List (ℚ × ℚ)
  | a :: b :: t => (a, b) :: consecPairs (b :: t)
  | _ => []

/-- The overlap-removal loop of `calculate_breaks`: walking left to right,
whenever a range's upper bound is `≥` the next range's lower bound, shrink
that upper bound by `0.001`.  Each iteration reads only the next range's
lower bound, which the loop never modifies, so the loop is this recursion. -/
def adjustRanges : List (ℚ × ℚ) → List (ℚ × ℚ)
  | [] => []
  | [r] => [r]
  | (l₁, u₁) :: (l₂, u₂) :: rest =>
    (if l₂ ≤ u₁ then (l₁, u₁ - eps) else (l₁, u₁)) ::
      adjustRanges ((l₂, u₂) :: rest)

/-- Result of `calculate_breaks`: the cut-point array and the adjusted
range list. -/
structure BreakSet where
  breaks : List ℚ
  break_ranges : List (ℚ × ℚ)
deriving DecidableEq, Repr

/-- `calculate_breaks(df, column)` on a column `xs`: compute outlier limits,
filter the column to `[LI, LS]` (the `.notnull()` conjunct is vacuous, nulls
being unmodelled), then dispatch on the break-method string: `"percentiles"`
takes the interior evenly spaced percentiles of the filtered values,
`"jenks"` takes the interior Jenks boundaries; both then prepend
`min_value - 0.001` and append `max_value + 0.001` and run the
overlap-removal pass; any other string raises `ValueError` (`configError`).
`sigma` is threaded to `calculate_outliers_limits` for its `std_dev`
branch. -/
def calculate_breaks (xs : List ℚ) (cfg : VarConfig) (numCategories : ℕ)
    (sigma : ℚ) : Except RFMError BreakSet := do
  let lim ← calculate_outliers_limits xs cfg sigma
  let filtered := xs.filter (fun x => decide (lim.LI ≤ x) && decide (x ≤ lim.LS))
  if cfg.breaks_method = "percentiles" then do
    let inner ← (interiorPercentiles numCategories).mapM (npPercentile filtered)
    let breaks := (lim.min_value - eps) :: inner ++ [lim.max_value + eps]
    let break_ranges := consecPairs breaks
    pure ⟨breaks, adjustRanges break_ranges⟩
  else if cfg.breaks_method = "jenks" then do
    let jb ← jenks_breaks filtered numCategories
    let inner := (jb.drop 1).dropLast
    let breaks := (lim.min_value - eps) :: inner ++ [lim.max_value + eps]
    let break_ranges := consecPairs breaks
    pure ⟨breaks, adjustRanges break_ranges⟩
  else
    .error .configError

/-- `get_range_for_value(value, break_ranges)`: linear scan for the first
half-open range with `lower ≤ value < upper`; failing that, the value is
assigned the last range when it equals that range's upper bound; otherwise
`None`. -/
def get_range_for_value (value : ℚ) (break_ranges : List (ℚ × ℚ)) :
    Option (ℚ × ℚ) :=
  match break_ranges.find? (fun r => decide (r.1 ≤ value) && decide (value < r.2)) with
  | some r => some r
  | none =>
    match break_ranges.getLast? with
    | some r => if value = r.2 then some r else none
    | none => none

/-- The bucket index of one value in `calculate_score`:
`np.clip(np.digitize(value, breaks, right=False), score_min, num_categories)`. -/
def bucketFor (g : GlobalConfig) (breaks : List ℚ) (v : ℚ) : ℤ :=
  npClip (digitize v breaks) g.score_min (g.num_categories : ℤ)

/-- The bucket-to-score map of `calculate_score`:
`score_min + (b - score_min)·step`, or `score_max - (b - score_min)·step`
when inverse. -/
def scoreOfBucket (g : GlobalConfig) (inverse : Bool) (b : ℤ) : ℤ :=
  if inverse then g.score_max - (b - g.score_min) * g.score_step
  else g.score_min + (b - g.score_min) * g.score_step

/-- The score of one value under `calculate_score`. -/
def scoreValue (g : GlobalConfig) (breaks : List ℚ) (inverse : Bool)
    (v : ℚ) : ℤ :=
  scoreOfBucket g inverse (bucketFor g breaks v)

/-- `calculate_score(df, column, breaks, break_ranges, inverse)`: digitize
every value, clip the bucket indices to `[score_min, num_categories]`, map
each value to its range via `get_range_for_value`, then apply the standard
or inverse bucket-to-score transformation. -/
def calculate_score (values : List ℚ) (breaks : List ℚ)
    (break_ranges : List (ℚ × ℚ)) (g : GlobalConfig) (inverse : Bool) :
    List ℤ × List (Option (ℚ × ℚ)) :=
  (values.map (scoreValue g breaks inverse),
   values.map (fun v => get_range_for_value v break_ranges))

/-- A column of the scores dictionary built by `process_rfm_data`: either a
score column or a range column. -/
inductive TableCol where
  | scores (s : List ℤ)
  | ranges (r : List (Option (ℚ × ℚ)))
deriving DecidableEq, Repr

/-- Python `str.lower()` on the (ASCII) variable names used by
`process_rfm_data`, char by char. -/
def strToLower (s : String) : String := String.mk (s.data.map Char.toLower)

/-- The body of one iteration of `process_rfm_data` for variable `name`:
look the column up in the table (`df[column]`, a `KeyError` when absent),
set `inverse` iff the lowercased name is `"recency"`, compute the breaks and
then the scores and ranges. -/
def scoreVariable (table : List (String × List ℚ)) (name : String)
    (cfg : VarConfig) (g : GlobalConfig) (sigma : ℚ) :
    Except RFMError (List ℤ × List (Option (ℚ × ℚ))) := do
  let xs ← match table.find? (fun c => c.1 = name) with
           | some c => pure c.2
           | none => .error .keyError
  let inverse := strToLower name = "recency"
  let bs ← calculate_breaks xs cfg g.num_categories sigma
  pure (calculate_score xs bs.breaks bs.break_ranges g inverse)

/-- `process_rfm_data(rfm_processor, rfm_data)`: iterate over the configured
variables in order; for each, compute breaks, scores and ranges and add the
`column + "_score"` and `column + "_range"` entries to the scores
dictionary; a `KeyError` or any other exception for one variable is caught,
logged and skipped, leaving the other variables' columns intact. -/
def process_rfm_data (table : List (String × List ℚ))
    (varsCfg : List (String × VarConfig)) (g : GlobalConfig) (sigma : ℚ) :
    List (String × TableCol) :=
  varsCfg.foldr
    (fun v acc =>
      match scoreVariable table v.1 v.2 g sigma with
      | .ok (s, r) =>
        (v.1 ++ "_score", .scores s) :: (v.1 ++ "_range", .ranges r) :: acc
      | .error _ => acc) []

/-- One row of the per-customer score table consumed by
`calculate_final_score`. -/
structure ScoreRow where
  Recency_score : ℤ
  Frequency_score : ℤ
  Monetary_score : ℤ
deriving DecidableEq, Repr

/-- A cell of the `Final_Score` column: a concatenated string for the
`combinacion` method, a number for `suma` and `promedio`. -/
inductive FinalScoreVal where
  | s (v : String)
  | num (v : ℚ)
deriving DecidableEq, Repr

/-- `RFMProcessor.__init__` reads `score_method` from the configuration with
`self.config.get("score_method", "combinación")`: an absent key defaults to
the accented string `"combinación"`. -/
def initScoreMethod (configured : Option String) : String :=
  configured.getD "combinación"

/-- `calculate_final_score(df)`: dispatch on `score_method`; `'combinacion'`
concatenates the textual forms of the Recency, Frequency and Monetary
scores in that order, `'suma'` sums them, `'promedio'` averages them, and
any other string raises `ValueError` (`configError`). -/
def calculate_final_score (score_method : String) (df : List ScoreRow) :
    Except RFMError (List FinalScoreVal) :=
  if score_method = "combinacion" then
    .ok (df.map (fun r => .s (toString r.Recency_score ++
      toString r.Frequency_score ++ toString r.Monetary_score)))
  else if score_method = "suma" then
    .ok (df.map (fun r =>
      .num ((r.Recency_score + r.Frequency_score + r.Monetary_score : ℤ) : ℚ)))
  else if score_method = "promedio" then
    .ok (df.map (fun r =>
      .num (((r.Recency_score + r.Frequency_score + r.Monetary_score : ℤ) : ℚ) / 3)))
  else
    .error .configError

/-- A calendar month period, the value of `Timestamp.to_period('M')`. -/
structure YearMonth where
  year : ℤ
  month : ℤ
deriving DecidableEq, Repr

/-- One row of the table consumed by `assign_business_categories`: the
months-with-purchases count, the month period of the last purchase date,
and `str()` of the row's final-score cell (the textual form `categorize`
compares against the configured value lists). -/
structure CustomerRow where
  MonthsWithPurchases : ℤ
  LastPurchasePeriod : YearMonth
  final_score_str : String
deriving DecidableEq, Repr

/-- The inner `categorize` of `assign_business_categories`: scan the
configured business categories in declaration order and return the first
whose value list contains the score's textual form, else `"Sin Categoría"`. -/
def categorize (cats : List (String × List String)) (score : String) :
    String :=
  match cats.find? (fun c => decide (score ∈ c.2)) with
  | some c => c.1
  | none => "Sin Categoría"

/-- The `IsNew` predicate of `assign_business_categories`:
`MonthsWithPurchases == 1` and the last purchase's month period equals the
end date's month period. -/
def isNewCustomer (endPeriod : YearMonth) (c : CustomerRow) : Bool :=
  decide (c.MonthsWithPurchases = 1) && decide (c.LastPurchasePeriod = endPeriod)

/-- `assign_business_categories(df)`: rows satisfying `IsNew` get the
`'Nuevo'` category; every other row gets `categorize` of its final score.
Returns each row paired with its `Business_Category` value. -/
def assign_business_categories (cats : List (String × List String))
    (endPeriod : YearMonth) (df : List CustomerRow) :
    List (CustomerRow × String) :=
  df.map (fun c =>
    (c, if isNewCustomer endPeriod c then "Nuevo"
        else categorize cats c.final_score_str))

/-! ## Helper lemmas -/

lemma sorted_getD_mono {s : List ℚ} (hs : s.Sorted (· ≤ ·)) {i j : ℕ} (d : ℚ)
    (hij : i ≤ j) (hj : j < s.length) : s.getD i d ≤ s.getD j d := by
  have hi : i < s.length := lt_of_le_of_lt hij hj
  rw [List.getD_eq_get s d hi, List.getD_eq_get s d hj]
  exact hs.rel_get_of_le (by exact hij)

lemma getD_succ_ge {s : List ℚ} (hs : s.Sorted (· ≤ ·)) {i : ℕ}
    (hi : i < s.length) : s.getD i 0 ≤ s.getD (i + 1) (s.getD i 0) := by
  rcases lt_or_le (i + 1) s.length with h | h
  · rw [List.getD_eq_get s _ h, List.getD_eq_get s _ hi]
    exact hs.rel_get_of_le (by exact Nat.le_succ i)
  · rw [List.getD_eq_default _ _ h]

lemma interpCore_mono {s : List ℚ} (hs : s.Sorted (· ≤ ·)) {h₁ h₂ : ℚ}
    (h0 : 0 ≤ h₁) (h12 : h₁ ≤ h₂) (hub : h₂ ≤ (s.length : ℚ) - 1) :
    interpCore s h₁ ≤ interpCore s h₂ := by
  have hf1 : (0 : ℤ) ≤ ⌊h₁⌋ := Int.floor_nonneg.mpr h0
  have hf2 : (0 : ℤ) ≤ ⌊h₂⌋ := Int.floor_nonneg.mpr (h0.trans h12)
  have hflr1 : (⌊h₁⌋ : ℚ) ≤ h₁ := Int.floor_le h₁
  have hflr2 : (⌊h₂⌋ : ℚ) ≤ h₂ := Int.floor_le h₂
  have hlt1 : h₁ < ⌊h₁⌋ + 1 := Int.lt_floor_add_one h₁
  have hmono : ⌊h₁⌋ ≤ ⌊h₂⌋ := Int.floor_le_floor h12
  have hn2 : (⌊h₂⌋ : ℚ) ≤ (s.length : ℚ) - 1 := hflr2.trans hub
  have hn2' : ⌊h₂⌋ ≤ (s.length : ℤ) - 1 := by exact_mod_cast hn2
  have hi2lt : ⌊h₂⌋.toNat < s.length := by omega
  have hi1le : ⌊h₁⌋.toNat ≤ ⌊h₂⌋.toNat := by omega
  have hi1lt : ⌊h₁⌋.toNat < s.length := lt_of_le_of_lt hi1le hi2lt
  simp only [interpCore]
  set i₁ := ⌊h₁⌋.toNat with hi₁
  set i₂ := ⌊h₂⌋.toNat with hi₂
  set lo₁ := s.getD i₁ 0 with hlo₁
  set lo₂ := s.getD i₂ 0 with hlo₂
  set hi₁' := s.getD (i₁ + 1) lo₁ with hhi₁
  set hi₂' := s.getD (i₂ + 1) lo₂ with hhi₂
  have hd₁ : lo₁ ≤ hi₁' := getD_succ_ge hs hi1lt
  have hd₂ : lo₂ ≤ hi₂' := getD_succ_ge hs hi2lt
  have hcast1 : ((⌊h₁⌋ : ℚ)) = (i₁ : ℚ) := by
    rw [hi₁]; exact_mod_cast (Int.toNat_of_nonneg hf1).symm
  have hcast2 : ((⌊h₂⌋ : ℚ)) = (i₂ : ℚ) := by
    rw [hi₂]; exact_mod_cast (Int.toNat_of_nonneg hf2).symm
  rcases eq_or_lt_of_le hi1le with heq | hlt
  · -- same floor
    have hfe : ⌊h₁⌋ = ⌊h₂⌋ := by omega
    have hl : lo₂ = lo₁ := by rw [hlo₂, hlo₁, heq]
    have hh : hi₂' = hi₁' := by rw [hhi₂, hhi₁, heq, hl]
    rw [hl, hh, ← hfe]
    nlinarith [sub_nonneg.mpr hd₁]
  · -- strictly larger floor
    have hstep : i₁ + 1 ≤ i₂ := hlt
    have hmid : hi₁' ≤ lo₂ := by
      rw [hhi₁, hlo₂]
      calc s.getD (i₁ + 1) lo₁ = s.getD (i₁ + 1) 0 := by
            rw [List.getD_eq_get s _ (lt_of_le_of_lt hstep hi2lt),
              List.getD_eq_get s _ (lt_of_le_of_lt hstep hi2lt)]
        _ ≤ s.getD i₂ 0 := sorted_getD_mono hs _ hstep hi2lt
    have hup : lo₁ + (h₁ - ⌊h₁⌋) * (hi₁' - lo₁) ≤ hi₁' := by
      nlinarith [sub_nonneg.mpr hd₁]
    have hdown : lo₂ ≤ lo₂ + (h₂ - ⌊h₂⌋) * (hi₂' - lo₂) := by
      nlinarith [sub_nonneg.mpr hd₂]
    linarith

lemma sortQ_sorted (xs : List ℚ) : (sortQ xs).Sorted (· ≤ ·) :=
  List.sorted_insertionSort _ xs

lemma sortQ_length (xs : List ℚ) : (sortQ xs).length = xs.length :=
  List.length_insertionSort _ xs

lemma interpAt_mono {xs : List ℚ} (hne : xs ≠ []) {p q : ℚ}
    (hp : 0 ≤ p) (hpq : p ≤ q) (hq : q ≤ 100) :
    interpAt (sortQ xs) p ≤ interpAt (sortQ xs) q := by
  have hlen : 1 ≤ xs.length := List.length_pos.mpr hne
  have hlen' : (1 : ℚ) ≤ ((sortQ xs).length : ℚ) := by
    rw [sortQ_length]; exact_mod_cast hlen
  have hnn : (0 : ℚ) ≤ ((sortQ xs).length : ℚ) - 1 := by linarith
  apply interpCore_mono (sortQ_sorted xs)
  · positivity
  · apply div_le_div_of_nonneg_right ?_ (by norm_num)
    · exact mul_le_mul_of_nonneg_left hpq hnn
  · rw [div_le_iff (by norm_num)]
    nlinarith

lemma digitize_mono {v₁ v₂ : ℚ} (h : v₁ ≤ v₂) (bins : List ℚ) :
    digitize v₁ bins ≤ digitize v₂ bins := by
  induction bins with
  | nil => simp [digitize]
  | cons b t ih =>
    simp only [digitize, List.filter] at ih ⊢
    rcases le_or_lt b v₁ with hb | hb
    · rw [decide_eq_true hb, decide_eq_true (hb.trans h)]
      simpa using ih
    · rcases le_or_lt b v₂ with hb2 | hb2
      · rw [decide_eq_false (by exact not_le.mpr hb), decide_eq_true hb2]
        simp only [List.length_cons]
        exact ih.trans (Nat.le_succ _)
      · rw [decide_eq_false (by exact not_le.mpr hb),
          decide_eq_false (by exact not_le.mpr hb2)]
        exact ih

lemma adjustRanges_getLast? : ∀ rs : List (ℚ × ℚ),
    (adjustRanges rs).getLast? = rs.getLast?
  | [] => rfl
  | [_] => rfl
  | a :: b :: t => by
    obtain ⟨y, ys, hy⟩ : ∃ y ys, adjustRanges (b :: t) = y :: ys := by
      cases t with
      | nil => exact ⟨b, [], rfl⟩
      | cons c t' =>
        rw [adjustRanges]
        exact ⟨_, _, rfl⟩
    rw [show adjustRanges (a :: b :: t) =
        (if b.1 ≤ a.2 then (a.1, a.2 - eps) else (a.1, a.2)) ::
          adjustRanges (b :: t) from by rw [adjustRanges]]
    rw [hy, List.getLast?_cons_cons, ← hy, adjustRanges_getLast? (b :: t),
      List.getLast?_cons_cons]

lemma adjustRanges_head_fst (l u : ℚ) (t : List (ℚ × ℚ)) :
    ∃ u', (adjustRanges ((l, u) :: t)).head? = some (l, u') := by
  cases t with
  | nil => exact ⟨u, rfl⟩
  | cons b t' =>
    rw [adjustRanges]
    split
    · exact ⟨u - eps, rfl⟩
    · exact ⟨u, rfl⟩

lemma adjustRanges_chain' : ∀ rs : List (ℚ × ℚ),
    List.Chain' (fun r s => r.2 = s.1) rs →
    List.Chain' (fun r s : ℚ × ℚ => r.2 ≤ s.1) (adjustRanges rs)
  | [], _ => List.chain'_nil
  | [r], _ => by simp [adjustRanges]
  | (l₁, u₁) :: (l₂, u₂) :: rest, h => by
    rw [List.chain'_cons] at h
    obtain ⟨h12, hrest⟩ := h
    have ih := adjustRanges_chain' ((l₂, u₂) :: rest) hrest
    rw [adjustRanges]
    rw [List.chain'_cons']
    refine ⟨?_, ih⟩
    intro y hy
    obtain ⟨u', hu'⟩ := adjustRanges_head_fst l₂ u₂ rest
    rw [hu'] at hy
    simp only [Option.mem_def, Option.some.injEq] at hy
    subst hy
    split
    · have heps : (0 : ℚ) < eps := by norm_num [eps]
      simp only at h12 ⊢
      linarith
    · rename_i hcond
      simp only at hcond ⊢
      linarith [not_le.mp hcond]

lemma consecPairs_chain' : ∀ l : List ℚ,
    List.Chain' (fun r s : ℚ × ℚ => r.2 = s.1) (consecPairs l)
  | [] => List.chain'_nil
  | [_] => List.chain'_nil
  | a :: b :: t => by
    have ih := consecPairs_chain' (b :: t)
    rw [show consecPairs (a :: b :: t) = (a, b) :: consecPairs (b :: t) from rfl]
    rw [List.chain'_cons']
    refine ⟨?_, ih⟩
    intro y hy
    cases t with
    | nil => simp [consecPairs] at hy
    | cons c t' =>
      rw [show consecPairs (b :: c :: t') = (b, c) :: consecPairs (c :: t') from rfl] at hy
      simp only [List.head?_cons, Option.mem_def, Option.some.injEq] at hy
      subst hy
      rfl

lemma consecPairs_getLast?_snd : ∀ (a b : ℚ) (t : List ℚ),
    ((consecPairs (a :: b :: t)).getLast?).map Prod.snd = (b :: t).getLast?
  | _, _, [] => rfl
  | a, b, c :: t => by
    rw [show consecPairs (a :: b :: c :: t) = (a, b) :: consecPairs (b :: c :: t) from rfl,
      show consecPairs (b :: c :: t) = (b, c) :: consecPairs (c :: t) from rfl]
    rw [List.getLast?_cons_cons]
    rw [show (b, c) :: consecPairs (c :: t) = consecPairs (b :: c :: t) from rfl]
    rw [consecPairs_getLast?_snd b c t, List.getLast?_cons_cons]

lemma consecPairs_head (a b : ℚ) (t : List ℚ) :
    (consecPairs (a :: b :: t)).head? = some (a, b) := rfl

lemma except_bind_ok {α β : Type} {x : Except RFMError α}
    {f : α → Except RFMError β} {b : β} :
    (x >>= f) = .ok b ↔ ∃ a, x = .ok a ∧ f a = .ok b := by
  cases x <;> simp [Except.bind, Bind.bind]

lemma calculate_breaks_ok_shape {xs : List ℚ} {cfg : VarConfig} {n : ℕ}
    {sigma : ℚ} {bs : BreakSet}
    (h : calculate_breaks xs cfg n sigma = .ok bs) :
    ∃ (lim : OutlierLimits) (inner : List ℚ),
      calculate_outliers_limits xs cfg sigma = .ok lim ∧
      bs.breaks = (lim.min_value - eps) :: inner ++ [lim.max_value + eps] ∧
      bs.break_ranges = adjustRanges (consecPairs bs.breaks) := by
  unfold calculate_breaks at h
  rw [except_bind_ok] at h
  obtain ⟨lim, hlim, h⟩ := h
  refine ⟨lim, ?_⟩
  split at h
  · rw [except_bind_ok] at h
    obtain ⟨inner, hinner, h⟩ := h
    simp only [pure, Except.pure, Except.ok.injEq] at h
    exact ⟨inner, hlim, by rw [← h], by rw [← h]⟩
  · split at h
    · rw [except_bind_ok] at h
      obtain ⟨jb, hjb, h⟩ := h
      simp only [pure, Except.pure, Except.ok.injEq] at h
      exact ⟨(jb.drop 1).dropLast, hlim, by rw [← h], by rw [← h]⟩
    · exact absurd h (by simp)

lemma calculate_outliers_limits_min_max {xs : List ℚ} {cfg : VarConfig}
    {sigma : ℚ} {lim : OutlierLimits}
    (h : calculate_outliers_limits xs cfg sigma = .ok lim) :
    lim.min_value = colMin xs ∧ lim.max_value = colMax xs := by
  unfold calculate_outliers_limits at h
  split at h
  · rw [except_bind_ok] at h
    obtain ⟨q1, hq1, h⟩ := h
    rw [except_bind_ok] at h
    obtain ⟨q3, hq3, h⟩ := h
    simp only [pure, Except.pure, Except.ok.injEq] at h
    rw [← h]
    exact ⟨rfl, rfl⟩
  · split at h
    · simp only [pure, Except.pure, Except.ok.injEq] at h
      rw [← h]
      exact ⟨rfl, rfl⟩
    · split at h
      · rw [except_bind_ok] at h
        obtain ⟨li, hli, h⟩ := h
        rw [except_bind_ok] at h
        obtain ⟨ls, hls, h⟩ := h
        simp only [pure, Except.pure, Except.ok.injEq] at h
        rw [← h]
        exact ⟨rfl, rfl⟩
      · exact absurd h (by simp)


lemma npPercentile_ok {xs : List ℚ} (hne : xs ≠ []) (p : ℚ) :
    npPercentile xs p = .ok (interpAt (sortQ xs) p) := by
  simp [npPercentile, hne]

lemma categorize_of_no_match {cats : List (String × List String)} {s : String}
    (h : ∀ p ∈ cats, s ∉ p.2) : categorize cats s = "Sin Categoría" := by
  unfold categorize
  rw [List.find?_eq_none.mpr]
  intro p hp
  simpa using h p hp

lemma categorize_first_match : ∀ (pre : List (String × List String))
    (p : String × List String) (post : List (String × List String)) {s : String},
    (∀ q ∈ pre, s ∉ q.2) → s ∈ p.2 →
    categorize (pre ++ p :: post) s = p.1
  | [], p, post, s, _, hs => by
    unfold categorize
    rw [List.nil_append, List.find?_cons_of_pos _ (by simpa using hs)]
  | q :: pre, p, post, s, hpre, hs => by
    unfold categorize
    rw [List.cons_append, List.find?_cons_of_neg _ (by simpa using hpre q (by simp))]
    have ih := categorize_first_match pre p post (fun r hr => hpre r (by simp [hr])) hs
    unfold categorize at ih
    exact ih

lemma interiorPercentiles_length (n : ℕ) :
    (interiorPercentiles n).length = n - 1 := by
  unfold interiorPercentiles
  rw [List.length_map, List.length_dropLast, List.length_drop, List.length_range]
  omega

lemma interiorPercentiles_ne_nil {n : ℕ} (hn : 2 ≤ n) :
    interiorPercentiles n ≠ [] := by
  intro h
  have hlen := interiorPercentiles_length n
  rw [h] at hlen
  simp at hlen
  omega

lemma string_append_right_cancel {a b suf : String} (h : a ++ suf = b ++ suf) :
    a = b := by
  have hd : a.data ++ suf.data = b.data ++ suf.data := by
    have := congrArg String.data h
    simpa using this
  have h1 := (List.append_inj' hd rfl).1
  cases a
  cases b
  exact congrArg String.mk (by simpa using h1)

lemma string_append_ne_of_suffix_ne {a b suf₁ suf₂ : String}
    (hlen : suf₁.data.length = suf₂.data.length) (hne : suf₁ ≠ suf₂) :
    a ++ suf₁ ≠ b ++ suf₂ := by
  intro h
  have hd : a.data ++ suf₁.data = b.data ++ suf₂.data := by
    have := congrArg String.data h
    simpa using this
  have := (List.append_inj' hd hlen).2
  apply hne
  cases suf₁
  cases suf₂
  exact congrArg String.mk (by simpa using this)

lemma process_rfm_data_mem_name {table : List (String × List ℚ)}
    {g : GlobalConfig} {sigma : ℚ} :
    ∀ {varsCfg : List (String × VarConfig)} {k : String} {col : TableCol},
    (k, col) ∈ process_rfm_data table varsCfg g sigma →
    ∃ v, v ∈ varsCfg.map Prod.fst ∧ (k = v ++ "_score" ∨ k = v ++ "_range")
  | [], k, col, h => by simp [process_rfm_data] at h
  | (w, wcfg) :: rest, k, col, h => by
    rw [show process_rfm_data table ((w, wcfg) :: rest) g sigma =
      (match scoreVariable table w wcfg g sigma with
        | .ok (s, r) =>
          (w ++ "_score", TableCol.scores s) :: (w ++ "_range", TableCol.ranges r) ::
            process_rfm_data table rest g sigma
        | .error _ => process_rfm_data table rest g sigma) from rfl] at h
    rcases hsc : scoreVariable table w wcfg g sigma with e | ⟨s, r⟩ <;> rw [hsc] at h
    · obtain ⟨v, hv, hk⟩ := process_rfm_data_mem_name h
      exact ⟨v, by simp [hv], hk⟩
    · rcases List.mem_cons.mp h with heq | h
      · exact ⟨w, by simp, Or.inl (congrArg Prod.fst heq)⟩
      · rcases List.mem_cons.mp h with heq | h
        · exact ⟨w, by simp, Or.inr (congrArg Prod.fst heq)⟩
        · obtain ⟨v, hv, hk⟩ := process_rfm_data_mem_name h
          exact ⟨v, by simp [hv], hk⟩

/-! ## Claims -/

/-- C1 (amended): every `BreakSet` produced by `calculate_breaks` (both the
percentiles and the jenks method) has pairwise non-overlapping ranges
(`ranges[i].upper ≤ ranges[i+1].lower` for all `i`), with
`ranges[0].lower < column_min` and `ranges[-1].upper > column_max`.  The
original claim's zero-gap coverage of `[min-ε, max+ε]` is refuted by
`c1_counterexample`: the overlap-removal pass of `calculate_breaks` shrinks
every non-final upper bound by `ε`, leaving an `ε`-wide gap below each
interior cut-point. -/
theorem c1_break_ranges_nonoverlap_and_straddle {xs : List ℚ} {cfg : VarConfig} {n : ℕ}
    {sigma : ℚ} {bs : BreakSet}
    (h : calculate_breaks xs cfg n sigma = .ok bs) :
    (∀ i (hi : i + 1 < bs.break_ranges.length),
        (bs.break_ranges.get ⟨i, by omega⟩).2 ≤
          (bs.break_ranges.get ⟨i + 1, hi⟩).1) ∧
    (∃ r₀, bs.break_ranges.head? = some r₀ ∧ r₀.1 < colMin xs) ∧
    (∃ rl, bs.break_ranges.getLast? = some rl ∧ colMax xs < rl.2) := by
  obtain ⟨lim, inner, hlim, hbr, hrg⟩ := calculate_breaks_ok_shape h
  obtain ⟨hmin, hmax⟩ := calculate_outliers_limits_min_max hlim
  obtain ⟨y, t', hyt⟩ : ∃ y t', inner ++ [lim.max_value + eps] = y :: t' := by
    cases inner with
    | nil => exact ⟨_, _, rfl⟩
    | cons a t => exact ⟨_, _, rfl⟩
  have hbr' : bs.breaks = (lim.min_value - eps) :: y :: t' := by
    rw [hbr, List.cons_append, hyt]
  have heps : (0 : ℚ) < eps := by norm_num [eps]
  refine ⟨?_, ?_, ?_⟩
  · intro i hi
    have hch := adjustRanges_chain' _ (consecPairs_chain' bs.breaks)
    rw [← hrg] at hch
    have := List.chain'_iff_get.mp hch i (by omega)
    exact this
  · rw [hrg, hbr']
    rw [show consecPairs ((lim.min_value - eps) :: y :: t') =
      (lim.min_value - eps, y) :: consecPairs (y :: t') from rfl]
    obtain ⟨u', hu'⟩ := adjustRanges_head_fst (lim.min_value - eps) y (consecPairs (y :: t'))
    refine ⟨(lim.min_value - eps, u'), hu', ?_⟩
    rw [← hmin]
    simp only
    linarith
  · rw [hrg, adjustRanges_getLast?, hbr']
    have hsnd := consecPairs_getLast?_snd (lim.min_value - eps) y t'
    have hlast : (y :: t').getLast? = some (lim.max_value + eps) := by
      have hb : bs.breaks.getLast? = some (lim.max_value + eps) := by
        rw [hbr]
        exact List.getLast?_concat _
      rw [hbr'] at hb
      rwa [List.getLast?_cons_cons] at hb
    rw [hlast] at hsnd
    obtain ⟨rl, hrl, hrl2⟩ := Option.map_eq_some'.mp hsnd
    refine ⟨rl, hrl, ?_⟩
    rw [← hmax, hrl2]
    linarith


/-- Witness for `c1_break_ranges_nonoverlap_and_straddle`: a concrete jenks
run on `[0,1,2,3]` with 2 categories. -/
theorem c1_witness :
    calculate_breaks [0, 1, 2, 3] ⟨"IQR", none, none, none, none, "jenks"⟩ 2 0 =
      .ok ⟨[-1/1000, 1, 3001/1000], [(-1/1000, 999/1000), (1, 3001/1000)]⟩ ∧
    ((∀ i (hi : i + 1 < (BreakSet.mk [-1/1000, 1, 3001/1000]
          [(-1/1000, 999/1000), (1, 3001/1000)]).break_ranges.length),
        ((BreakSet.mk [-1/1000, 1, 3001/1000]
          [(-1/1000, 999/1000), (1, 3001/1000)]).break_ranges.get ⟨i, by omega⟩).2 ≤
          ((BreakSet.mk [-1/1000, 1, 3001/1000]
            [(-1/1000, 999/1000), (1, 3001/1000)]).break_ranges.get ⟨i + 1, hi⟩).1) ∧
      (∃ r₀, (BreakSet.mk [-1/1000, 1, 3001/1000]
          [(-1/1000, 999/1000), (1, 3001/1000)]).break_ranges.head? = some r₀ ∧
          r₀.1 < colMin [0, 1, 2, 3]) ∧
      (∃ rl, (BreakSet.mk [-1/1000, 1, 3001/1000]
          [(-1/1000, 999/1000), (1, 3001/1000)]).break_ranges.getLast? = some rl ∧
          colMax [0, 1, 2, 3] < rl.2)) :=
  ⟨by decide, @c1_break_ranges_nonoverlap_and_straddle [0, 1, 2, 3]
    ⟨"IQR", none, none, none, none, "jenks"⟩ 2 0
    ⟨[-1/1000, 1, 3001/1000], [(-1/1000, 999/1000), (1, 3001/1000)]⟩ (by decide)⟩

/-- Counterexample to C1 as stated: for the column `[0,1,2,3]` with the IQR
outlier method and percentile breaks into 2 categories, the point
`2999/2000 = 1.4995` lies inside `[min-ε, max+ε]` but inside none of the
produced ranges — the ranges do not cover `[min-ε, max+ε]` with zero gaps. -/
theorem c1_counterexample :
    calculate_breaks [0, 1, 2, 3] ⟨"IQR", none, none, none, none, "percentiles"⟩ 2 0 =
      .ok ⟨[-1/1000, 3/2, 3001/1000], [(-1/1000, 1499/1000), (3/2, 3001/1000)]⟩ ∧
    colMin [0, 1, 2, 3] - eps ≤ 2999/2000 ∧ 2999/2000 ≤ colMax [0, 1, 2, 3] + eps ∧
    ∀ r ∈ [((-1 : ℚ)/1000, (1499 : ℚ)/1000), ((3 : ℚ)/2, (3001 : ℚ)/1000)],
      ¬(r.1 ≤ 2999/2000 ∧ 2999/2000 < r.2) := by
  refine ⟨by decide, by decide, by decide, ?_⟩
  decide



/-- C2 (amended): `get_range_for_value` returns `none` iff the value lies in
none of the (ε-adjusted) half-open ranges and also differs from the last
range's upper bound; a value exactly equal to the final range's upper bound
is assigned that last range.  The original claim that `none` occurs only for
values strictly outside all computed ranges — so never for in-bounds values —
is refuted by `c2_counterexample`: the ε-shrink of `calculate_breaks` leaves
gaps inside the covered interval, and an in-bounds column value falling in a
gap gets `none`. -/
theorem c2_range_lookup_characterization (v : ℚ) (rs : List (ℚ × ℚ))
    (lr : ℚ × ℚ) (hlast : rs.getLast? = some lr) :
    (get_range_for_value v rs = none ↔
      (∀ r ∈ rs, ¬(r.1 ≤ v ∧ v < r.2)) ∧ v ≠ lr.2) ∧
    ((∀ r ∈ rs, ¬(r.1 ≤ v ∧ v < r.2)) → v = lr.2 →
      get_range_for_value v rs = some lr) := by
  unfold get_range_for_value
  cases hf : rs.find? (fun r => decide (r.1 ≤ v) && decide (v < r.2)) with
  | some r =>
    have hp := List.find?_some hf
    have hm := List.mem_of_find?_eq_some hf
    simp only [Bool.and_eq_true, decide_eq_true_eq] at hp
    constructor
    · constructor
      · intro h; exact absurd h (by simp)
      · rintro ⟨hall, -⟩; exact absurd hp (hall r hm)
    · rintro hall -; exact absurd hp (hall r hm)
  | none =>
    have hnone := List.find?_eq_none.mp hf
    have hall : ∀ r ∈ rs, ¬(r.1 ≤ v ∧ v < r.2) := by
      intro r hr
      have := hnone r hr
      simpa [Bool.and_eq_true, decide_eq_true_eq] using this
    rw [hlast]
    dsimp only
    constructor
    · constructor
      · intro h
        refine ⟨hall, ?_⟩
        by_contra hv
        rw [if_pos hv] at h
        exact Option.some_ne_none _ h
      · rintro ⟨-, hv⟩
        rw [if_neg hv]
    · rintro - hv
      rw [if_pos hv]

/-- Witness for `c2_range_lookup_characterization`: on the ranges produced
by `calculate_breaks` for the column `[0, 1/1000]`, the value `1/500` equals
the last range's upper bound and is assigned that last range. -/
theorem c2_witness :
    get_range_for_value (1/500) [((-1 : ℚ)/1000, (-1 : ℚ)/2000),
      ((1 : ℚ)/2000, (1 : ℚ)/500)] = some ((1 : ℚ)/2000, (1 : ℚ)/500) :=
  (c2_range_lookup_characterization (1/500)
    [((-1 : ℚ)/1000, (-1 : ℚ)/2000), ((1 : ℚ)/2000, (1 : ℚ)/500)]
    ((1 : ℚ)/2000, (1 : ℚ)/500) (by decide)).2 (by decide) (by decide)

/-- Counterexample to C2 as stated: for the column `[0, 1/1000]` with IQR
outliers and percentile breaks into 2 categories, `calculate_breaks` returns
ranges `[(-1/1000, -1/2000), (1/2000, 1/500)]` (the first upper bound was
ε-shrunk below zero).  The raw column value `0` is within the outlier bounds
`[LI, LS] = [-1/2000, 3/2000]`, yet `get_range_for_value` returns `none` for
it: an in-bounds, non-null value receives a null range. -/
theorem c2_counterexample :
    calculate_breaks [0, 1/1000] ⟨"IQR", none, none, none, none, "percentiles"⟩ 2 0 =
      .ok ⟨[-1/1000, 1/2000, 1/500], [(-1/1000, -1/2000), (1/2000, 1/500)]⟩ ∧
    calculate_outliers_limits [0, 1/1000] ⟨"IQR", none, none, none, none, "percentiles"⟩ 0 =
      .ok ⟨-1/2000, 3/2000, some (1/2000), 0, 1/1000⟩ ∧
    ((-1 : ℚ)/2000 ≤ 0 ∧ (0 : ℚ) ≤ 3/2000) ∧
    (0 : ℚ) ∈ [(0 : ℚ), 1/1000] ∧
    get_range_for_value 0 [(-1/1000, -1/2000), (1/2000, 1/500)] = none := by
  exact ⟨by decide, by decide, by decide, by decide, by decide⟩


/-- C3 (amended): under a consistent configuration — `score_min ≤
num_categories`, `0 ≤ score_step` and `score_max = score_min +
(num_categories - score_min)·score_step` — every score produced by
`calculate_score` (which maps `scoreValue` over the column, both standard
and inverse order) is an integer of the form `score_min + j·score_step`
lying in `[score_min, score_max]`, with the underlying `np.digitize` bucket
index clipped to `[score_min, num_categories]`.  The original claim
quantified over *every* configuration; `c3_counterexample` refutes that: for
`score_step = 2` with `score_min = 1`, `score_max = 5`, a large value scores
`9 > score_max`. -/
theorem c3_score_range_clipped (g : GlobalConfig)
    (hmin : g.score_min ≤ (g.num_categories : ℤ))
    (hstep : 0 ≤ g.score_step)
    (hmax : g.score_max =
      g.score_min + ((g.num_categories : ℤ) - g.score_min) * g.score_step) :
    (∀ values breaks br inverse,
      (calculate_score values breaks br g inverse).1 =
        values.map (scoreValue g breaks inverse)) ∧
    ∀ (breaks : List ℚ) (v : ℚ) (inverse : Bool),
      (g.score_min ≤ bucketFor g breaks v ∧
        bucketFor g breaks v ≤ (g.num_categories : ℤ)) ∧
      g.score_min ≤ scoreValue g breaks inverse v ∧
      scoreValue g breaks inverse v ≤ g.score_max ∧
      ∃ j : ℤ, scoreValue g breaks inverse v = g.score_min + j * g.score_step := by
  refine ⟨fun _ _ _ _ => rfl, fun breaks v inverse => ?_⟩
  have hb1 : g.score_min ≤ bucketFor g breaks v := by
    unfold bucketFor npClip
    exact le_min (le_max_right _ _) hmin
  have hb2 : bucketFor g breaks v ≤ (g.num_categories : ℤ) := min_le_right _ _
  refine ⟨⟨hb1, hb2⟩, ?_⟩
  unfold scoreValue scoreOfBucket
  have hprod1 : 0 ≤ (bucketFor g breaks v - g.score_min) * g.score_step :=
    mul_nonneg (by linarith) hstep
  have hprod2 : (bucketFor g breaks v - g.score_min) * g.score_step ≤
      ((g.num_categories : ℤ) - g.score_min) * g.score_step :=
    mul_le_mul_of_nonneg_right (by linarith) hstep
  cases inverse with
  | false =>
    simp only [Bool.false_eq_true, if_false]
    refine ⟨by linarith, by linarith, bucketFor g breaks v - g.score_min, rfl⟩
  | true =>
    simp only [if_true]
    refine ⟨by linarith, by linarith,
      ((g.num_categories : ℤ) - g.score_min) - (bucketFor g breaks v - g.score_min), ?_⟩
    rw [hmax]
    ring

/-- Witness for `c3_score_range_clipped`: the usual configuration
(scores 1..5 in steps of 1, five categories) at an out-of-range value. -/
theorem c3_witness :
    ((1 : ℤ) ≤ bucketFor ⟨1, 5, 1, 5⟩ [0, 1, 2, 3, 4, 5] 10 ∧
      bucketFor ⟨1, 5, 1, 5⟩ [0, 1, 2, 3, 4, 5] 10 ≤ ((5 : ℕ) : ℤ)) ∧
    (1 : ℤ) ≤ scoreValue ⟨1, 5, 1, 5⟩ [0, 1, 2, 3, 4, 5] false 10 ∧
    scoreValue ⟨1, 5, 1, 5⟩ [0, 1, 2, 3, 4, 5] false 10 ≤ 5 ∧
    ∃ j : ℤ, scoreValue ⟨1, 5, 1, 5⟩ [0, 1, 2, 3, 4, 5] false 10 = 1 + j * 1 :=
  (c3_score_range_clipped ⟨1, 5, 1, 5⟩ (by decide) (by decide) (by decide)).2
    [0, 1, 2, 3, 4, 5] 10 false

/-- Counterexample to C3 as stated: with configuration `score_min = 1`,
`score_max = 5`, `score_step = 2`, `num_categories = 5`, breaks
`[0,1,2,3,4,5]` and their (ε-adjusted) nonempty range list, the value `10`
digitizes past every break, is clipped to bucket 5, and `calculate_score`
returns the score `1 + (5-1)·2 = 9`, which exceeds `score_max = 5` — the
score is not in `[score_min, score_max]` for every configuration.  (The
range lookup on the nonempty range list returns `None` without error, so
the program really produces this score.) -/
theorem c3_counterexample :
    adjustRanges (consecPairs [0, 1, 2, 3, 4, 5]) =
      [(0, 999/1000), (1, 1999/1000), (2, 2999/1000), (3, 3999/1000), (4, 5)] ∧
    calculate_score [10] [0, 1, 2, 3, 4, 5]
      [(0, 999/1000), (1, 1999/1000), (2, 2999/1000), (3, 3999/1000), (4, 5)]
      ⟨1, 5, 2, 5⟩ false = ([9], [none]) ∧
    ¬((9 : ℤ) ≤ 5) := by
  exact ⟨by decide, by decide, by decide⟩


/-- C4: score assignment is monotonic in the raw value (given the
configured step is nonnegative, as in every real score range): with
`inverse = false`, `v₁ < v₂` implies `score v₁ ≤ score v₂`; with
`inverse = true` the order reverses.  `calculate_score` scores each value
through `scoreValue`, so the per-value statement covers every pair of values
scored against the same breaks and configuration. -/
theorem c4_score_monotonic (g : GlobalConfig) (breaks : List ℚ)
    (hstep : 0 ≤ g.score_step) (v₁ v₂ : ℚ) (h : v₁ < v₂) :
    (∀ values br inverse,
      (calculate_score values breaks br g inverse).1 =
        values.map (scoreValue g breaks inverse)) ∧
    scoreValue g breaks false v₁ ≤ scoreValue g breaks false v₂ ∧
    scoreValue g breaks true v₂ ≤ scoreValue g breaks true v₁ := by
  refine ⟨fun _ _ _ => rfl, ?_⟩
  have hd := digitize_mono h.le breaks
  have hb : bucketFor g breaks v₁ ≤ bucketFor g breaks v₂ := by
    unfold bucketFor npClip
    have hc : (digitize v₁ breaks : ℤ) ≤ (digitize v₂ breaks : ℤ) := by
      exact_mod_cast hd
    exact min_le_min (max_le_max hc le_rfl) le_rfl
  have hprod : (bucketFor g breaks v₁ - g.score_min) * g.score_step ≤
      (bucketFor g breaks v₂ - g.score_min) * g.score_step :=
    mul_le_mul_of_nonneg_right (by linarith) hstep
  unfold scoreValue scoreOfBucket
  constructor
  · simp only [Bool.false_eq_true, if_false]
    linarith
  · simp only [if_true]
    linarith

/-- Witness for `c4_score_monotonic`: two concrete values against concrete
breaks under the usual 1..5 configuration. -/
theorem c4_witness :
    (∀ values br inverse,
      (calculate_score values [0, 1, 2, 3, 4, 5] br ⟨1, 5, 1, 5⟩ inverse).1 =
        values.map (scoreValue ⟨1, 5, 1, 5⟩ [0, 1, 2, 3, 4, 5] inverse)) ∧
    scoreValue ⟨1, 5, 1, 5⟩ [0, 1, 2, 3, 4, 5] false (1/2) ≤
      scoreValue ⟨1, 5, 1, 5⟩ [0, 1, 2, 3, 4, 5] false (7/2) ∧
    scoreValue ⟨1, 5, 1, 5⟩ [0, 1, 2, 3, 4, 5] true (7/2) ≤
      scoreValue ⟨1, 5, 1, 5⟩ [0, 1, 2, 3, 4, 5] true (1/2) :=
  c4_score_monotonic ⟨1, 5, 1, 5⟩ [0, 1, 2, 3, 4, 5] (by decide) (1/2) (7/2)
    (by norm_num)

/-- C5: with the recognized combination method string `'combinacion'` (the
code spelling of the spec's "combination"), `calculate_final_score` returns
for every row the concatenation of the textual forms of the Recency,
Frequency and Monetary scores in that fixed order, and for every
unrecognized method string it raises `ValueError` (`configError`). -/
theorem c5_final_score_combination (df : List ScoreRow) (m : String) :
    (∃ vals, calculate_final_score "combinacion" df = .ok vals ∧
      ∀ i : ℕ, vals[i]? = (df[i]?).map (fun r =>
        FinalScoreVal.s (toString r.Recency_score ++ toString r.Frequency_score ++
          toString r.Monetary_score))) ∧
    (m ≠ "combinacion" → m ≠ "suma" → m ≠ "promedio" →
      calculate_final_score m df = .error .configError) := by
  constructor
  · refine ⟨_, rfl, ?_⟩
    intro i
    show (df.map _)[i]? = _
    rw [List.getElem?_map]
  · intro h1 h2 h3
    unfold calculate_final_score
    rw [if_neg h1, if_neg h2, if_neg h3]

/-- Witness for `c5_final_score_combination`: Recency 5, Frequency 2,
Monetary 4 concatenate to "524" (spec Scenario D), and the unrecognized
method "foo" raises. -/
theorem c5_witness :
    calculate_final_score "combinacion" [⟨5, 2, 4⟩] = .ok [.s "524"] ∧
    calculate_final_score "foo" [⟨5, 2, 4⟩] = .error .configError :=
  ⟨by decide, (c5_final_score_combination [⟨5, 2, 4⟩] "foo").2
    (by decide) (by decide) (by decide)⟩


/-- C6: in `assign_business_categories`, a customer satisfies the new-customer
predicate iff their months-with-purchases count equals 1 and their last
purchase falls in the same calendar year+month as the configured end date;
such customers are labeled `'Nuevo'` unconditionally, bypassing the
score-to-category mapping; every other customer gets the first configured
category (in declaration order) whose value list contains their final
score's textual form, or `"Sin Categoría"` when none matches. -/
theorem c6_new_customer_category (cats : List (String × List String))
    (endP : YearMonth) (df : List CustomerRow) (c : CustomerRow) (cat : String)
    (hmem : (c, cat) ∈ assign_business_categories cats endP df) :
    (isNewCustomer endP c = true ↔
      (c.MonthsWithPurchases = 1 ∧ c.LastPurchasePeriod = endP)) ∧
    (isNewCustomer endP c = true → cat = "Nuevo") ∧
    (isNewCustomer endP c = false →
      ((∀ p ∈ cats, c.final_score_str ∉ p.2) → cat = "Sin Categoría") ∧
      (∀ pre p post, cats = pre ++ p :: post →
        (∀ q ∈ pre, c.final_score_str ∉ q.2) → c.final_score_str ∈ p.2 →
        cat = p.1)) := by
  unfold assign_business_categories at hmem
  obtain ⟨a, ha, heq⟩ := List.mem_map.mp hmem
  obtain ⟨rfl, rfl⟩ : a = c ∧
      (if isNewCustomer endP a then "Nuevo"
        else categorize cats a.final_score_str) = cat :=
    ⟨congrArg Prod.fst heq, congrArg Prod.snd heq⟩
  refine ⟨by simp [isNewCustomer], ?_, ?_⟩
  · intro hnew
    rw [if_pos hnew]
  · intro hnew
    rw [if_neg (by simp [hnew])]
    constructor
    · intro hnone
      exact categorize_of_no_match hnone
    · intro pre p post hcats hpre hp
      rw [hcats]
      exact categorize_first_match pre p post hpre hp

/-- Witness for `c6_new_customer_category`: a customer with
`MonthsWithPurchases = 1` whose last purchase is in the end date's month is
labeled `'Nuevo'` even though their final score "555" matches the configured
category "Campeones" (spec Scenario E). -/
theorem c6_witness :
    (isNewCustomer ⟨2024, 12⟩ ⟨1, ⟨2024, 12⟩, "555"⟩ = true ↔
      ((⟨1, ⟨2024, 12⟩, "555"⟩ : CustomerRow).MonthsWithPurchases = 1 ∧
        (⟨1, ⟨2024, 12⟩, "555"⟩ : CustomerRow).LastPurchasePeriod = ⟨2024, 12⟩)) ∧
    (isNewCustomer ⟨2024, 12⟩ ⟨1, ⟨2024, 12⟩, "555"⟩ = true → "Nuevo" = "Nuevo") ∧
    (isNewCustomer ⟨2024, 12⟩ ⟨1, ⟨2024, 12⟩, "555"⟩ = false →
      ((∀ p ∈ [("Campeones", ["555"])],
          (⟨1, ⟨2024, 12⟩, "555"⟩ : CustomerRow).final_score_str ∉ p.2) →
        "Nuevo" = "Sin Categoría") ∧
      (∀ pre p post, [("Campeones", ["555"])] = pre ++ p :: post →
        (∀ q ∈ pre, (⟨1, ⟨2024, 12⟩, "555"⟩ : CustomerRow).final_score_str ∉ q.2) →
        (⟨1, ⟨2024, 12⟩, "555"⟩ : CustomerRow).final_score_str ∈ p.2 →
        "Nuevo" = p.1)) :=
  c6_new_customer_category [("Campeones", ["555"])] ⟨2024, 12⟩
    [⟨1, ⟨2024, 12⟩, "555"⟩] ⟨1, ⟨2024, 12⟩, "555"⟩ "Nuevo" (by decide)


/-- C7: `process_rfm_data` never aborts because one variable fails: for
every configured variable whose per-variable scoring (`scoreVariable`,
i.e. column lookup → `calculate_breaks` → `calculate_score`) succeeds, the
variable's `_score` and `_range` columns appear in the output regardless of
any other variable failing; and a variable whose scoring raises any error
(missing column `KeyError` or any other exception) has its `_score` column
omitted, leaving only a partial result. -/
theorem c7_pipeline_skips_failing_variable (table : List (String × List ℚ)) (g : GlobalConfig) (sigma : ℚ) :
    ∀ (varsCfg : List (String × VarConfig)) (name : String) (cfg : VarConfig),
    (varsCfg.map Prod.fst).Nodup → (name, cfg) ∈ varsCfg →
    (∀ s r, scoreVariable table name cfg g sigma = .ok (s, r) →
      (name ++ "_score", TableCol.scores s) ∈ process_rfm_data table varsCfg g sigma ∧
      (name ++ "_range", TableCol.ranges r) ∈ process_rfm_data table varsCfg g sigma) ∧
    (∀ e, scoreVariable table name cfg g sigma = .error e →
      ∀ col, (name ++ "_score", col) ∉ process_rfm_data table varsCfg g sigma) := by
  intro varsCfg
  induction varsCfg with
  | nil =>
    intro name cfg hnd hmem
    simp at hmem
  | cons hd rest ih =>
    obtain ⟨w, wcfg⟩ := hd
    intro name cfg hnd hmem
    have hproc : process_rfm_data table ((w, wcfg) :: rest) g sigma =
        (match scoreVariable table w wcfg g sigma with
          | .ok (s, r) =>
            (w ++ "_score", TableCol.scores s) :: (w ++ "_range", TableCol.ranges r) ::
              process_rfm_data table rest g sigma
          | .error _ => process_rfm_data table rest g sigma) := rfl
    simp only [List.map_cons, List.nodup_cons] at hnd
    obtain ⟨hw, hndr⟩ := hnd
    rcases List.mem_cons.mp hmem with heq | hmemr
    · obtain ⟨h1, h2⟩ := Prod.mk.injEq _ _ _ _ ▸ heq
      subst h1
      subst h2
      constructor
      · intro s r hok
        rw [hproc, hok]
        exact ⟨List.mem_cons_self _ _,
          List.mem_cons_of_mem _ (List.mem_cons_self _ _)⟩
      · intro e herr col hmem'
        rw [hproc, herr] at hmem'
        obtain ⟨v, hv, hk⟩ := process_rfm_data_mem_name hmem'
        rcases hk with hk | hk
        · exact hw (string_append_right_cancel hk ▸ hv)
        · exact string_append_ne_of_suffix_ne (by decide) (by decide) hk
    · have ihr := ih name cfg hndr hmemr
      have hname : name ∈ rest.map Prod.fst := List.mem_map_of_mem Prod.fst hmemr
      constructor
      · intro s r hok
        obtain ⟨m1, m2⟩ := ihr.1 s r hok
        rw [hproc]
        rcases hsc : scoreVariable table w wcfg g sigma with e' | ⟨s', r'⟩
        · exact ⟨m1, m2⟩
        · exact ⟨List.mem_cons_of_mem _ (List.mem_cons_of_mem _ m1),
            List.mem_cons_of_mem _ (List.mem_cons_of_mem _ m2)⟩
      · intro e herr col
        have hnot := ihr.2 e herr col
        rw [hproc]
        rcases hsc : scoreVariable table w wcfg g sigma with e' | ⟨s', r'⟩
        · exact hnot
        · intro hmem'
          rcases List.mem_cons.mp hmem' with heq' | hmem''
          · have : name ++ "_score" = w ++ "_score" := congrArg Prod.fst heq'
            exact hw (string_append_right_cancel this ▸ hname)
          · rcases List.mem_cons.mp hmem'' with heq' | hmem'''
            · have : name ++ "_score" = w ++ "_range" := congrArg Prod.fst heq'
              exact string_append_ne_of_suffix_ne (by decide) (by decide) this
            · exact hnot hmem'''

/-- Witness for `c7_pipeline_skips_failing_variable`: a table containing
only a `Recency` column, scored with two configured variables; `Recency`
is scored and appears, the `Monetary` variable (missing column, `KeyError`)
is skipped. -/
theorem c7_witness :
    ("Recency" ++ "_score", TableCol.scores [5, 5, 4, 4]) ∈
      process_rfm_data [("Recency", [0, 1, 2, 3])]
        [("Recency", ⟨"IQR", none, none, none, none, "percentiles"⟩),
          ("Monetary", ⟨"IQR", none, none, none, none, "percentiles"⟩)]
        ⟨1, 5, 1, 2⟩ 0 ∧
    ("Recency" ++ "_range", TableCol.ranges
        [some (-1/1000, 1499/1000), some (-1/1000, 1499/1000),
          some (3/2, 3001/1000), some (3/2, 3001/1000)]) ∈
      process_rfm_data [("Recency", [0, 1, 2, 3])]
        [("Recency", ⟨"IQR", none, none, none, none, "percentiles"⟩),
          ("Monetary", ⟨"IQR", none, none, none, none, "percentiles"⟩)]
        ⟨1, 5, 1, 2⟩ 0 ∧
    ("Monetary" ++ "_score", TableCol.scores [5, 5, 4, 4]) ∉
      process_rfm_data [("Recency", [0, 1, 2, 3])]
        [("Recency", ⟨"IQR", none, none, none, none, "percentiles"⟩),
          ("Monetary", ⟨"IQR", none, none, none, none, "percentiles"⟩)]
        ⟨1, 5, 1, 2⟩ 0 := by
  have hok := (c7_pipeline_skips_failing_variable [("Recency", [0, 1, 2, 3])]
    ⟨1, 5, 1, 2⟩ 0
    [("Recency", ⟨"IQR", none, none, none, none, "percentiles"⟩),
      ("Monetary", ⟨"IQR", none, none, none, none, "percentiles"⟩)]
    "Recency" ⟨"IQR", none, none, none, none, "percentiles"⟩
    (by decide) (by decide)).1 [5, 5, 4, 4]
    [some (-1/1000, 1499/1000), some (-1/1000, 1499/1000),
      some (3/2, 3001/1000), some (3/2, 3001/1000)] (by decide)
  have herr := (c7_pipeline_skips_failing_variable [("Recency", [0, 1, 2, 3])]
    ⟨1, 5, 1, 2⟩ 0
    [("Recency", ⟨"IQR", none, none, none, none, "percentiles"⟩),
      ("Monetary", ⟨"IQR", none, none, none, none, "percentiles"⟩)]
    "Monetary" ⟨"IQR", none, none, none, none, "percentiles"⟩
    (by decide) (by decide)).2 .keyError (by decide)
    (TableCol.scores [5, 5, 4, 4])
  exact ⟨hok.1, hok.2, herr⟩


/-- C8: given the outlier stage succeeded, `calculate_breaks` raises
`ValueError` (`configError`) for every unsupported breaks-method string, and
raises (`dataError`, the numpy/jenkspy exception) whenever the values
remaining after filtering to `[LI, LS]` are empty — it never computes
percentiles (for ≥ 2 categories, so at least one interior percentile is
requested) or Jenks breaks on zero samples. -/
theorem c8_breaks_error_handling (xs : List ℚ) (cfg : VarConfig) (n : ℕ) (sigma : ℚ)
    (lim : OutlierLimits)
    (houtl : calculate_outliers_limits xs cfg sigma = .ok lim) :
    (cfg.breaks_method ≠ "percentiles" → cfg.breaks_method ≠ "jenks" →
      calculate_breaks xs cfg n sigma = .error .configError) ∧
    (xs.filter (fun x => decide (lim.LI ≤ x) && decide (x ≤ lim.LS)) = [] →
      2 ≤ n → (cfg.breaks_method = "percentiles" ∨ cfg.breaks_method = "jenks") →
      calculate_breaks xs cfg n sigma = .error .dataError) := by
  unfold calculate_breaks
  rw [houtl]
  simp only [Bind.bind, Except.bind]
  constructor
  · intro h1 h2
    rw [if_neg h1, if_neg h2]
  · intro hfil hn hm
    rcases hm with hm | hm
    · rw [if_pos hm, hfil]
      obtain ⟨p, rest, hpr⟩ := List.exists_cons_of_ne_nil (interiorPercentiles_ne_nil hn)
      rw [hpr]
      have hmp : List.mapM (npPercentile []) (p :: rest) = .error .dataError := by
        simp [List.mapM, List.mapM.loop, npPercentile, Bind.bind, Except.bind]
      rw [hmp]
    · have hnp : cfg.breaks_method ≠ "percentiles" := by
        rw [hm]; decide
      have hj : jenks_breaks ([] : List ℚ) n = .error .dataError := by
        unfold jenks_breaks
        rw [if_pos (by simp only [List.length_nil]; omega)]
      rw [if_neg hnp, if_pos hm, hfil, hj]

/-- Witness for `c8_breaks_error_handling`: the percentile outlier bounds of
the column `[0, 1/1000]` (5th/95th percentiles) exclude both values, so the
filtered sample is empty and percentile break computation fails with
`dataError`; an unsupported breaks method `"quantiles"` on the same column
fails with `configError`. -/
theorem c8_witness :
    calculate_breaks [0, 1/1000]
      ⟨"percentiles", none, none, none, none, "percentiles"⟩ 2 0 =
      .error .dataError ∧
    calculate_breaks [0, 1/1000]
      ⟨"percentiles", none, none, none, none, "quantiles"⟩ 2 0 =
      .error .configError :=
  ⟨(c8_breaks_error_handling [0, 1/1000]
      ⟨"percentiles", none, none, none, none, "percentiles"⟩ 2 0
      ⟨1/20000, 19/20000, none, 0, 1/1000⟩ (by decide)).2
      (by decide) (by decide) (Or.inl rfl),
    (c8_breaks_error_handling [0, 1/1000]
      ⟨"percentiles", none, none, none, none, "quantiles"⟩ 2 0
      ⟨1/20000, 19/20000, none, 0, 1/1000⟩ (by decide)).1
      (by decide) (by decide)⟩


/-- C9: on every nonempty column, `calculate_outliers_limits` returns bounds
with `LI ≤ LS` for each of the three outlier methods, and the bounds follow
the configured formulas: IQR gives `Q1 - f·IQR` and `Q3 + f·IQR` with
`f = iqr_factor` defaulting to 1.5; `std_dev` gives `mean ± k·σ` with
`k = std_dev_factor` defaulting to 2 and `σ` the sample standard deviation
(`0 ≤ σ`, `σ² = sampleVar`); `percentiles` gives the configured low/high
percentiles defaulting to the 5th/95th.  (`≥ 2` distinct values are not even
needed: nonemptiness suffices.) -/
theorem c9_outlier_bounds_ordered (xs : List ℚ) (cfg : VarConfig) (sigma : ℚ) (hne : xs ≠ []) :
    (cfg.outlier_method = "IQR" → 0 ≤ cfg.iqr_factor.getD (3/2) →
      ∃ lim, calculate_outliers_limits xs cfg sigma = .ok lim ∧
        lim.LI ≤ lim.LS ∧
        lim.LI = interpAt (sortQ xs) 25 -
          cfg.iqr_factor.getD (3/2) * (interpAt (sortQ xs) 75 - interpAt (sortQ xs) 25) ∧
        lim.LS = interpAt (sortQ xs) 75 +
          cfg.iqr_factor.getD (3/2) * (interpAt (sortQ xs) 75 - interpAt (sortQ xs) 25)) ∧
    (cfg.outlier_method = "std_dev" → 0 ≤ cfg.std_dev_factor.getD 2 →
      0 ≤ sigma → sigma ^ 2 = sampleVar xs →
      ∃ lim, calculate_outliers_limits xs cfg sigma = .ok lim ∧
        lim.LI ≤ lim.LS ∧
        lim.LI = colMean xs - cfg.std_dev_factor.getD 2 * sigma ∧
        lim.LS = colMean xs + cfg.std_dev_factor.getD 2 * sigma) ∧
    (cfg.outlier_method = "percentiles" →
      0 ≤ cfg.percentile_lower.getD 5 →
      cfg.percentile_lower.getD 5 ≤ cfg.percentile_upper.getD 95 →
      cfg.percentile_upper.getD 95 ≤ 100 →
      ∃ lim, calculate_outliers_limits xs cfg sigma = .ok lim ∧
        lim.LI ≤ lim.LS ∧
        lim.LI = interpAt (sortQ xs) (cfg.percentile_lower.getD 5) ∧
        lim.LS = interpAt (sortQ xs) (cfg.percentile_upper.getD 95)) := by
  refine ⟨?_, ?_, ?_⟩
  · intro hm hf
    have hq : interpAt (sortQ xs) 25 ≤ interpAt (sortQ xs) 75 :=
      interpAt_mono hne (by norm_num) (by norm_num) (by norm_num)
    have hok : calculate_outliers_limits xs cfg sigma = .ok
        ⟨interpAt (sortQ xs) 25 - cfg.iqr_factor.getD (3/2) *
            (interpAt (sortQ xs) 75 - interpAt (sortQ xs) 25),
          interpAt (sortQ xs) 75 + cfg.iqr_factor.getD (3/2) *
            (interpAt (sortQ xs) 75 - interpAt (sortQ xs) 25),
          some (interpAt (sortQ xs) 75 - interpAt (sortQ xs) 25),
          colMin xs, colMax xs⟩ := by
      unfold calculate_outliers_limits
      rw [if_pos hm, npPercentile_ok hne, npPercentile_ok hne]
      rfl
    refine ⟨_, hok, ?_, rfl, rfl⟩
    simp only
    nlinarith
  · intro hm hf hs hv
    have hm1 : cfg.outlier_method ≠ "IQR" := by rw [hm]; decide
    have hok : calculate_outliers_limits xs cfg sigma = .ok
        ⟨colMean xs - cfg.std_dev_factor.getD 2 * sigma,
          colMean xs + cfg.std_dev_factor.getD 2 * sigma,
          some sigma, colMin xs, colMax xs⟩ := by
      unfold calculate_outliers_limits
      rw [if_neg hm1, if_pos hm]
      rfl
    refine ⟨_, hok, ?_, rfl, rfl⟩
    simp only
    nlinarith
  · intro hm h0 h12 h100
    have hm1 : cfg.outlier_method ≠ "IQR" := by rw [hm]; decide
    have hm2 : cfg.outlier_method ≠ "std_dev" := by rw [hm]; decide
    have hq : interpAt (sortQ xs) (cfg.percentile_lower.getD 5) ≤
        interpAt (sortQ xs) (cfg.percentile_upper.getD 95) :=
      interpAt_mono hne h0 h12 h100
    have hok : calculate_outliers_limits xs cfg sigma = .ok
        ⟨interpAt (sortQ xs) (cfg.percentile_lower.getD 5),
          interpAt (sortQ xs) (cfg.percentile_upper.getD 95),
          none, colMin xs, colMax xs⟩ := by
      unfold calculate_outliers_limits
      rw [if_neg hm1, if_neg hm2, if_pos hm]
      dsimp only
      rw [npPercentile_ok hne, npPercentile_ok hne]
      rfl
    refine ⟨_, hok, ?_, rfl, rfl⟩
    simp only
    exact hq

/-- Witness for `c9_outlier_bounds_ordered`: the three methods applied to
concrete columns — IQR on `[0,1,2,3]` with default factor, `std_dev` on
`[0,1,2]` whose sample variance is exactly 1 (so `σ = 1`), and default
5th/95th percentiles on `[0,1,2,3]`. -/
theorem c9_witness :
    (∃ lim, calculate_outliers_limits [0, 1, 2, 3]
        ⟨"IQR", none, none, none, none, "percentiles"⟩ 0 = .ok lim ∧
      lim.LI ≤ lim.LS ∧
      lim.LI = interpAt (sortQ [0, 1, 2, 3]) 25 -
        (3/2) * (interpAt (sortQ [0, 1, 2, 3]) 75 - interpAt (sortQ [0, 1, 2, 3]) 25) ∧
      lim.LS = interpAt (sortQ [0, 1, 2, 3]) 75 +
        (3/2) * (interpAt (sortQ [0, 1, 2, 3]) 75 - interpAt (sortQ [0, 1, 2, 3]) 25)) ∧
    (∃ lim, calculate_outliers_limits [0, 1, 2]
        ⟨"std_dev", none, none, none, none, "percentiles"⟩ 1 = .ok lim ∧
      lim.LI ≤ lim.LS ∧
      lim.LI = colMean [0, 1, 2] - 2 * 1 ∧
      lim.LS = colMean [0, 1, 2] + 2 * 1) ∧
    (∃ lim, calculate_outliers_limits [0, 1, 2, 3]
        ⟨"percentiles", none, none, none, none, "percentiles"⟩ 0 = .ok lim ∧
      lim.LI ≤ lim.LS ∧
      lim.LI = interpAt (sortQ [0, 1, 2, 3]) 5 ∧
      lim.LS = interpAt (sortQ [0, 1, 2, 3]) 95) :=
  ⟨(c9_outlier_bounds_ordered [0, 1, 2, 3]
      ⟨"IQR", none, none, none, none, "percentiles"⟩ 0 (by decide)).1
      rfl (by norm_num),
    (c9_outlier_bounds_ordered [0, 1, 2]
      ⟨"std_dev", none, none, none, none, "percentiles"⟩ 1 (by decide)).2.1
      rfl (by norm_num) (by norm_num) (by decide),
    (c9_outlier_bounds_ordered [0, 1, 2, 3]
      ⟨"percentiles", none, none, none, none, "percentiles"⟩ 0 (by decide)).2.2
      rfl (by norm_num) (by norm_num) (by norm_num)⟩

/-- C10: when the configuration omits the `score_method` key,
`RFMProcessor.__init__` defaults it to the accented string `"combinación"`,
which matches none of the branches of `calculate_final_score`
(`'combinacion'`, `'suma'`, `'promedio'`); under that default every call
raises `ValueError`. -/
theorem c10_default_score_method_rejected : initScoreMethod none = "combinación" ∧
    ∀ df : List ScoreRow,
      calculate_final_score (initScoreMethod none) df = .error .configError := by
  refine ⟨rfl, fun df => ?_⟩
  unfold calculate_final_score initScoreMethod
  rw [if_neg (by decide), if_neg (by decide), if_neg (by decide)]

end RFM
